import Mathlib

/-!
Verification of the JA4+ dictionary matching engine
(`Dictionary/dictionary_model.py`, class `JA4PlusDatabase` and the
evaluation harness `evaluate_test_set_to_file`).

Python strings are embedded as `List Char` (`Str`): this makes `.strip()`,
string truthiness (`if s:` means `s ≠ ""`), and f-string concatenation with
the `|` separator directly computable and provable.  Python `dict`s (which
preserve insertion order) are embedded as association lists.  `None`-able
row fields are `Option Str`.  Exceptions are `Except PyError`.
-/

/-- A Python string, embedded as its list of characters. -/
abbrev Str := List Char

/-- Coerce a Lean string literal into the embedding. -/
def str (s : String) : Str := s.data

/-- Python `s.strip()`: drop whitespace from both ends. -/
def pyStrip (s : Str) : Str :=
  ((s.dropWhile Char.isWhitespace).reverse.dropWhile Char.isWhitespace).reverse

/-- The key separator used in f-strings like `f"{ja4}|{ja4s}"`. -/
def bar : Char := '|'

/-- A string free of the key separator. -/
def barFree (s : Str) : Prop := bar ∉ s

instance (s : Str) : Decidable (barFree s) := inferInstanceAs (Decidable (bar ∉ s))

/-- A raw database row: every field is optional, as `row.get(...)` may
return `None`.  Field names follow the JSON schema read by `load_database`. -/
structure Row where
  ja4_fingerprint : Option Str
  ja4s_fingerprint : Option Str
  ja4ts_fingerprint : Option Str
  ja4t_fingerprint : Option Str
  application : Option Str
  device : Option Str
  library : Option Str
  os : Option Str
  user_agent_string : Option Str
  notes : Option Str
deriving DecidableEq

/-- Python `(row.get(k) or "")`: `None` and `""` are both falsy, so the
result is the stored string when present, else `""`. -/
def pyGet (o : Option Str) : Str := o.getD []

/-- The metadata record appended to an index bucket by `load_database`.
Field order follows the dict literal in the source.  The source later groups
records by `tuple(sorted(match.items()))`; since every record dict has
exactly these six keys, that grouping coincides with full record equality,
which is how this embedding groups them. -/
structure Record where
  Application : Str
  Library : Str
  Device : Str
  OS : Str
  UserAgent : Str
  Notes : Str
deriving DecidableEq

/-- The three validated experiment modes. -/
inductive Mode where
  | ja4_only
  | ja4_ja4s
  | ja4_ja4s_ja4ts
deriving DecidableEq

/-- The two exception kinds the engine can raise. -/
inductive PyError where
  | valueError
  | fileNotFoundError
deriving DecidableEq

/-- Source list `valid_modes = ["ja4_only", "ja4_ja4s", "ja4_ja4s_ja4ts"]` from `__init__`. -/
def valid_modes : List Str := [str "ja4_only", str "ja4_ja4s", str "ja4_ja4s_ja4ts"]

/-- Mode-name recognition performed by `__init__`'s membership test. -/
def parseMode (mode : Str) : Option Mode :=
  if mode = str "ja4_only" then some .ja4_only
  else if mode = str "ja4_ja4s" then some .ja4_ja4s
  else if mode = str "ja4_ja4s_ja4ts" then some .ja4_ja4s_ja4ts
  else none

/-- The index: a Python dict from key string to bucket (list of records),
embedded as an association list in insertion order. -/
abbrev Index := List (Str × List Record)

/-- The engine state after `__init__`: a fixed mode and the index. -/
structure JA4PlusDatabase where
  mode : Mode
  index : Index
deriving DecidableEq

/-- Constructor `__init__`: reject a mode name outside `valid_modes` with `ValueError`
(fail fast, before any row exists); otherwise start with an empty index. -/
def JA4PlusDatabase.init (mode : Str) : Except PyError JA4PlusDatabase :=
  match parseMode mode with
  | none => .error .valueError
  | some m => .ok ⟨m, []⟩

/-- Dict lookup `self.index[key]` / membership `key in self.index`. -/
def idxFind : Index → Str → Option (List Record)
  | [], _ => none
  | (k, b) :: rest, key => if k = key then some b else idxFind rest key

/-- Source lines `if index_key not in self.index: self.index[index_key] = []` followed by
`self.index[index_key].append(rec)`: append to the existing bucket in place,
or create a new bucket at the end of the dict order. -/
def idxAppend : Index → Str → Record → Index
  | [], key, rec => [(key, [rec])]
  | (k, b) :: rest, key, rec =>
      if k = key then (k, b ++ [rec]) :: rest else (k, b) :: idxAppend rest key rec

/-- Source line `ja4 = (row.get("ja4_fingerprint") or "").strip()` in `load_database`. -/
def rowJa4 (row : Row) : Str := pyStrip (pyGet row.ja4_fingerprint)

/-- Source line `ja4s = (row.get("ja4s_fingerprint") or "").strip()` in `load_database`. -/
def rowJa4s (row : Row) : Str := pyStrip (pyGet row.ja4s_fingerprint)

/-- Source line `ja4ts = (row.get("ja4ts_fingerprint") or row.get("ja4t_fingerprint") or "").strip()`:
the JA4TS field when truthy, else the JA4T fallback, then stripped. -/
def rowJa4ts (row : Row) : Str :=
  pyStrip (if pyGet row.ja4ts_fingerprint ≠ [] then pyGet row.ja4ts_fingerprint
           else pyGet row.ja4t_fingerprint)

/-- The metadata extraction of `load_database` (every field `or ""` then
stripped). -/
def recordOf (row : Row) : Record :=
  ⟨pyStrip (pyGet row.application), pyStrip (pyGet row.library),
   pyStrip (pyGet row.device), pyStrip (pyGet row.os),
   pyStrip (pyGet row.user_agent_string), pyStrip (pyGet row.notes)⟩

/-- Step 1 of `load_database`'s loop body: construct the index key from the
already-stripped components.  `ja4 ≠ []` is Python string truthiness.  When a
key is produced it is nonempty (mode 1 requires a truthy `ja4`; modes 2 and 3
always contain `|`), so the subsequent `if index_key:` test in the source is
exactly the `some` case here. -/
def indexKeyOf (mode : Mode) (ja4 ja4s ja4ts : Str) : Option Str :=
  match mode with
  | .ja4_only => if ja4 ≠ [] then some ja4 else none
  | .ja4_ja4s =>
      if ja4 ≠ [] ∨ ja4s ≠ [] then some (ja4 ++ bar :: ja4s) else none
  | .ja4_ja4s_ja4ts =>
      if ja4 ≠ [] ∨ ja4s ≠ [] ∨ ja4ts ≠ [] then
        some (ja4 ++ bar :: (ja4s ++ bar :: ja4ts)) else none

/-- The key `load_database` forms for a row. -/
def rowKey (mode : Mode) (row : Row) : Option Str :=
  indexKeyOf mode (rowJa4 row) (rowJa4s row) (rowJa4ts row)

/-- The build-time key computed from raw component strings: strip each
component (as `load_database` does), then construct the key. -/
def buildKeyFromRaw (mode : Mode) (ja4 ja4s ja4ts : Str) : Option Str :=
  indexKeyOf mode (pyStrip ja4) (pyStrip ja4s) (pyStrip ja4ts)

/-- One iteration of `load_database`'s `for row in data` loop. -/
def processRow (mode : Mode) (idx : Index) (row : Row) : Index :=
  match rowKey mode row with
  | none => idx
  | some k => idxAppend idx k (recordOf row)

/-- The whole `for row in data` loop, starting from the current index
(`load_database` never clears `self.index`). -/
def loadRows (mode : Mode) (idx : Index) (rows : List Row) : Index :=
  rows.foldl (processRow mode) idx

/-- Method `load_database`: a missing backing file (`file = none` models
`os.path.exists(self.db_path)` returning false) raises `FileNotFoundError`
before anything is read; otherwise fold the rows into the index. -/
def JA4PlusDatabase.load_database (db : JA4PlusDatabase) (file : Option (List Row)) :
    Except PyError JA4PlusDatabase :=
  match file with
  | none => .error .fileNotFoundError
  | some rows => .ok ⟨db.mode, loadRows db.mode db.index rows⟩

/-- Result of `predict`: the `{"result": "unknown"}` dict with an optional
`"reason"` entry, or the `{"result": "match", ...}` dict.  A ranked entry is
a record paired with its `occurrences_in_database` count. -/
inductive PredictResult where
  | unknown (reason : Option Str)
  | matched (top_matches : List (Record × Nat))
      (additional_results_count : Nat) (total_unique_combinations_found : Nat)
deriving DecidableEq

/-- Reason string `"Missing required JA4 string"`. -/
def reason_ja4_only : Str := str "Missing required JA4 string"

/-- Reason string `"Missing required JA4 or JA4S strings for this mode"`. -/
def reason_ja4_ja4s : Str := str "Missing required JA4 or JA4S strings for this mode"

/-- Reason string `"Missing required strings for this mode"`. -/
def reason_ja4_ja4s_ja4ts : Str := str "Missing required strings for this mode"

/-- The frequency-map update of `predict`'s aggregation loop: increment the
entry for `m` if present, else append `(m, 1)` at the end (Python dicts keep
first-insertion order). -/
def fmIncr : List (Record × Nat) → Record → List (Record × Nat)
  | [], m => [(m, 1)]
  | (r, c) :: rest, m =>
      if r = m then (r, c + 1) :: rest else (r, c) :: fmIncr rest m

/-- State of `frequency_map` after the `for match in all_matches` loop. -/
def freqFold (all_matches : List Record) : List (Record × Nat) :=
  all_matches.foldl fmIncr []

/-- The ordering used by `sorted(..., key=lambda item: item[1], reverse=True)`:
descending occurrence count. -/
def descCount (a b : Record × Nat) : Prop := b.2 ≤ a.2

instance : DecidableRel descCount := fun a b => inferInstanceAs (Decidable (b.2 ≤ a.2))

instance : IsTotal (Record × Nat) descCount := ⟨fun a b => Nat.le_total b.2 a.2⟩

instance : IsTrans (Record × Nat) descCount := ⟨fun _ _ _ hab hbc => le_trans hbc hab⟩

/-- Variable `sorted_matches`: Python's `sorted` is a stable sort; on the descending
count order, a stable sort leaves ties in first-occurrence order, exactly as
`List.insertionSort descCount` does. -/
def sortedMatchesOf (all_matches : List Record) : List (Record × Nat) :=
  List.insertionSort descCount (freqFold all_matches)

/-- The match branch of `predict`: top 5 groups, hidden count
(`len(sorted_matches) - 5 if len(sorted_matches) > 5 else 0`), total group
count. -/
def matchResult (all_matches : List Record) : PredictResult :=
  let sorted_matches := sortedMatchesOf all_matches
  .matched (sorted_matches.take 5)
    (if 5 < sorted_matches.length then sorted_matches.length - 5 else 0)
    sorted_matches.length

/-- Source lines `if target_key in self.index: ... else: return {"result": "unknown"}`. -/
def lookupStep (idx : Index) (target_key : Str) : PredictResult :=
  match idxFind idx target_key with
  | some all_matches => matchResult all_matches
  | none => .unknown none

/-- Method `predict(ja4, ja4s, ja4ts)`: per-mode required-component checks on the
RAW arguments (no stripping happens at query time), then the lookup. -/
def JA4PlusDatabase.predict (db : JA4PlusDatabase) (ja4 ja4s ja4ts : Str) :
    PredictResult :=
  match db.mode with
  | .ja4_only =>
      if ja4 = [] then .unknown (some reason_ja4_only)
      else lookupStep db.index ja4
  | .ja4_ja4s =>
      if ja4 = [] ∧ ja4s = [] then .unknown (some reason_ja4_ja4s)
      else lookupStep db.index (ja4 ++ bar :: ja4s)
  | .ja4_ja4s_ja4ts =>
      if ja4 = [] ∧ ja4s = [] ∧ ja4ts = [] then .unknown (some reason_ja4_ja4s_ja4ts)
      else lookupStep db.index (ja4 ++ bar :: (ja4s ++ bar :: ja4ts))

/-- The query-time key `predict` forms (`target_key`), `none` when the
per-mode required components are all empty. -/
def targetKeyOf (mode : Mode) (ja4 ja4s ja4ts : Str) : Option Str :=
  match mode with
  | .ja4_only => if ja4 = [] then none else some ja4
  | .ja4_ja4s => if ja4 = [] ∧ ja4s = [] then none else some (ja4 ++ bar :: ja4s)
  | .ja4_ja4s_ja4ts =>
      if ja4 = [] ∧ ja4s = [] ∧ ja4ts = [] then none
      else some (ja4 ++ bar :: (ja4s ++ bar :: ja4ts))

/-- The per-mode unknown reason string `predict` emits. -/
def reasonOf (mode : Mode) : Str :=
  match mode with
  | .ja4_only => reason_ja4_only
  | .ja4_ja4s => reason_ja4_ja4s
  | .ja4_ja4s_ja4ts => reason_ja4_ja4s_ja4ts

/-- One record of the harness output payload. -/
structure EvalRecord where
  true_app : Str
  prediction : Str
  top_k : List Str
  matches_count : Nat
deriving DecidableEq

/-- The `for m in top_matches` loop of `evaluate_test_set_to_file`:
`if cand and cand not in top_k_list: top_k_list.append(cand)`. -/
def topKFold (top_matches : List (Record × Nat)) : List Str :=
  top_matches.foldl
    (fun acc m =>
      if m.1.Application ≠ [] ∧ m.1.Application ∉ acc then acc ++ [m.1.Application]
      else acc) []

/-- The per-row projection of `evaluate_test_set_to_file`: defaults
`prediction = "Unknown"`, `top_k = []`, `matches_count = 0`, overridden on a
match by the deduplicated non-empty application list, its head, and the
total combination count. -/
def projectRow (app : Str) (res : PredictResult) : EvalRecord :=
  match res with
  | .matched top_matches _ total =>
      let top_k_list := topKFold top_matches
      ⟨app, (match top_k_list with | [] => str "Unknown" | p :: _ => p),
       top_k_list, total⟩
  | .unknown _ => ⟨app, str "Unknown", [], 0⟩

example : pyStrip (str " A ") = str "A" := by decide

example : buildKeyFromRaw .ja4_only (str " A") [] [] = some (str "A") := by decide

example : targetKeyOf .ja4_only (str " A") [] [] = some (str " A") := by decide

/-! ### Basic characterizations -/

/-- The per-mode "required components are all empty" condition that `predict`
tests before building a target key. -/
def requiredEmpty (mode : Mode) (ja4 ja4s ja4ts : Str) : Prop :=
  match mode with
  | .ja4_only => ja4 = []
  | .ja4_ja4s => ja4 = [] ∧ ja4s = []
  | .ja4_ja4s_ja4ts => ja4 = [] ∧ ja4s = [] ∧ ja4ts = []

instance (m : Mode) (a b c : Str) : Decidable (requiredEmpty m a b c) := by
  cases m <;> · unfold requiredEmpty; infer_instance

theorem targetKeyOf_eq_none (mode : Mode) (ja4 ja4s ja4ts : Str) :
    targetKeyOf mode ja4 ja4s ja4ts = none ↔ requiredEmpty mode ja4 ja4s ja4ts := by
  cases mode <;> · unfold targetKeyOf requiredEmpty; split <;> simp_all

theorem predict_eq (db : JA4PlusDatabase) (ja4 ja4s ja4ts : Str) :
    db.predict ja4 ja4s ja4ts =
      match targetKeyOf db.mode ja4 ja4s ja4ts with
      | none => .unknown (some (reasonOf db.mode))
      | some k => lookupStep db.index k := by
  obtain ⟨m, idx⟩ := db
  cases m <;>
    · simp only [JA4PlusDatabase.predict, targetKeyOf, reasonOf]
      split <;> rfl

theorem parseMode_eq_none (s : Str) : parseMode s = none ↔ s ∉ valid_modes := by
  unfold parseMode valid_modes
  split_ifs with h1 h2 h3 <;> simp_all

theorem predict_eq_none (db : JA4PlusDatabase) (ja4 ja4s ja4ts : Str)
    (h : targetKeyOf db.mode ja4 ja4s ja4ts = none) :
    db.predict ja4 ja4s ja4ts = .unknown (some (reasonOf db.mode)) := by
  rw [predict_eq, h]

theorem predict_eq_some (db : JA4PlusDatabase) (ja4 ja4s ja4ts k : Str)
    (h : targetKeyOf db.mode ja4 ja4s ja4ts = some k) :
    db.predict ja4 ja4s ja4ts = lookupStep db.index k := by
  rw [predict_eq, h]

/-- C5: an unknown with the mode's reason string is returned exactly when the
active mode's required components are all empty, and an unknown without a
reason exactly when a target key was built but is absent from the index (so
on any other input `predict` does not return an unknown result). -/
theorem dict_two_unknowns (db : JA4PlusDatabase) (ja4 ja4s ja4ts : Str) :
    (db.predict ja4 ja4s ja4ts = .unknown (some (reasonOf db.mode)) ↔
        requiredEmpty db.mode ja4 ja4s ja4ts) ∧
    (db.predict ja4 ja4s ja4ts = .unknown none ↔
        ∃ k, targetKeyOf db.mode ja4 ja4s ja4ts = some k ∧ idxFind db.index k = none) ∧
    (∀ r, db.predict ja4 ja4s ja4ts = .unknown (some r) → r = reasonOf db.mode) := by
  cases htk : targetKeyOf db.mode ja4 ja4s ja4ts with
  | none =>
      rw [predict_eq_none db ja4 ja4s ja4ts htk]
      refine ⟨?_, ?_, ?_⟩
      · simp [(targetKeyOf_eq_none db.mode ja4 ja4s ja4ts).mp htk]
      · simp
      · intro r h
        injection h with h'
        injection h' with h''
        exact h''.symm
  | some k =>
      rw [predict_eq_some db ja4 ja4s ja4ts k htk]
      unfold lookupStep
      cases hf : idxFind db.index k with
      | none =>
          refine ⟨?_, ?_, ?_⟩
          · constructor
            · intro h; simp at h
            · intro h
              have h2 := (targetKeyOf_eq_none db.mode ja4 ja4s ja4ts).mpr h
              rw [htk] at h2; exact Option.noConfusion h2
          · exact ⟨fun _ => ⟨k, rfl, hf⟩, fun _ => rfl⟩
          · intro r h; simp at h
      | some bucket =>
          refine ⟨?_, ?_, ?_⟩
          · constructor
            · intro h; simp [matchResult] at h
            · intro h
              have h2 := (targetKeyOf_eq_none db.mode ja4 ja4s ja4ts).mpr h
              rw [htk] at h2; exact Option.noConfusion h2
          · constructor
            · intro h; simp [matchResult] at h
            · rintro ⟨k2, hk2, hfk2⟩
              injection hk2 with hkk
              subst hkk
              rw [hf] at hfk2
              exact Option.noConfusion hfk2
          · intro r h; simp [matchResult] at h

/-- C7: an unsupported mode name makes construction fail with `ValueError`
(the constructor never sees a row, so no row is processed), and on a freshly
constructed engine a missing database file makes `load_database` fail with
`FileNotFoundError`; in both cases the index is (still) empty. -/
theorem dict_failfast (s : Str) :
    (s ∉ valid_modes → JA4PlusDatabase.init s = .error .valueError) ∧
    (∀ db, JA4PlusDatabase.init s = .ok db →
      db.index = [] ∧ db.load_database none = .error .fileNotFoundError) := by
  constructor
  · intro hs
    unfold JA4PlusDatabase.init
    rw [(parseMode_eq_none s).mpr hs]
  · intro db hdb
    unfold JA4PlusDatabase.init at hdb
    cases hpm : parseMode s with
    | none => rw [hpm] at hdb; exact Except.noConfusion hdb
    | some m =>
        rw [hpm] at hdb
        injection hdb with h
        subst h
        exact ⟨rfl, rfl⟩

theorem dict_failfast_witness :
    JA4PlusDatabase.init (str "bogus") = .error .valueError ∧
    ((⟨Mode.ja4_only, []⟩ : JA4PlusDatabase).index = [] ∧
      JA4PlusDatabase.load_database ⟨Mode.ja4_only, []⟩ none = .error .fileNotFoundError) :=
  ⟨(dict_failfast (str "bogus")).1 (by decide),
   (dict_failfast (str "ja4_only")).2 ⟨Mode.ja4_only, []⟩ (by rfl)⟩

/-- C9: the pipeline is a deterministic function of (rows, mode, query): two
engine instances that load the same row sequence under the same mode answer
every query identically. -/
theorem dict_deterministic (m : Mode) (rows : List Row) (e1 e2 : JA4PlusDatabase)
    (h1 : JA4PlusDatabase.load_database ⟨m, []⟩ (some rows) = .ok e1)
    (h2 : JA4PlusDatabase.load_database ⟨m, []⟩ (some rows) = .ok e2)
    (ja4 ja4s ja4ts : Str) :
    e1.predict ja4 ja4s ja4ts = e2.predict ja4 ja4s ja4ts := by
  unfold JA4PlusDatabase.load_database at h1 h2
  injection h1 with h1'
  injection h2 with h2'
  rw [← h1', ← h2']

theorem dict_deterministic_witness :
    JA4PlusDatabase.predict ⟨Mode.ja4_only, loadRows .ja4_only [] []⟩ (str "A") [] [] =
    JA4PlusDatabase.predict ⟨Mode.ja4_only, loadRows .ja4_only [] []⟩ (str "A") [] [] :=
  dict_deterministic .ja4_only [] _ _ rfl rfl (str "A") [] []

/-- C1 (divergence evidence): under `ja4_only`, the row whose raw
`ja4_fingerprint` is `" A"` is accepted at build time (its key, after the
build-time `.strip()`, is `"A"` and its record is indexed), yet querying
`predict` with the same raw value `" A"` returns `{"result": "unknown"}`
instead of a match, because `predict` performs no stripping.  The spec's
round-trip property fails on this input. -/
theorem dict_roundtrip_failure :
    idxFind
        (loadRows .ja4_only []
          [⟨some (str " A"), none, none, none, some (str "App1"), none, none, none, none, none⟩])
        (str "A") =
      some [⟨str "App1", [], [], [], [], []⟩] ∧
    JA4PlusDatabase.predict
        ⟨.ja4_only,
          loadRows .ja4_only []
            [⟨some (str " A"), none, none, none, some (str "App1"), none, none, none, none, none⟩]⟩
        (str " A") [] [] = .unknown none := by
  decide

/-- C2 (divergence evidence): on the raw component triple `(" A", "", "")`
under `ja4_only`, the build side strips and produces the key `"A"` while the
query side produces `" A"`; and on `("  ", "", "")` the build side rejects
the row (stripped key component empty) while the query side accepts it.
Build-time and query-time key construction are not the same function. -/
theorem dict_key_asymmetry :
    buildKeyFromRaw .ja4_only (str " A") [] [] = some (str "A") ∧
    targetKeyOf .ja4_only (str " A") [] [] = some (str " A") ∧
    buildKeyFromRaw .ja4_only (str " A") [] [] ≠ targetKeyOf .ja4_only (str " A") [] [] ∧
    buildKeyFromRaw .ja4_only (str "  ") [] [] = none ∧
    targetKeyOf .ja4_only (str "  ") [] [] ≠ none := by
  decide

/-! ### Frequency aggregation: characterizing `frequency_map` -/

/-- First-occurrence deduplication: the key insertion order of a Python dict
built by repeated insertion, i.e. the bucket's distinct metadata
combinations in order of first appearance. -/
def dedupFO (l : List Record) : List Record :=
  l.foldl (fun acc r => if r ∈ acc then acc else acc ++ [r]) []

/-- Association-list lookup in a frequency map. -/
def fmGet : List (Record × Nat) → Record → Option Nat
  | [], _ => none
  | (r, c) :: rest, m => if r = m then some c else fmGet rest m

/-- The count stored for `r` (0 when absent). -/
def cnt (fm : List (Record × Nat)) (r : Record) : Nat := (fmGet fm r).getD 0

theorem count_cons_ite (a r : Record) (l : List Record) :
    (a :: l).count r = l.count r + if r = a then 1 else 0 := by
  rw [List.count_cons]
  by_cases h : a = r
  · subst h; simp
  · simp [h, Ne.symm h]

theorem fmIncr_fst (fm : List (Record × Nat)) (m : Record) :
    (fmIncr fm m).map Prod.fst =
      if m ∈ fm.map Prod.fst then fm.map Prod.fst else fm.map Prod.fst ++ [m] := by
  induction fm with
  | nil => simp [fmIncr]
  | cons p rest ih =>
      obtain ⟨r, c⟩ := p
      by_cases h : r = m
      · subst h; simp [fmIncr]
      · by_cases hm : m ∈ rest.map Prod.fst
        · simp [fmIncr, h, ih, hm, Ne.symm h]
        · simp [fmIncr, h, ih, hm, Ne.symm h]

theorem fmIncr_snd_sum (fm : List (Record × Nat)) (m : Record) :
    ((fmIncr fm m).map Prod.snd).sum = ((fm.map Prod.snd).sum) + 1 := by
  induction fm with
  | nil => simp [fmIncr]
  | cons p rest ih =>
      obtain ⟨r, c⟩ := p
      by_cases h : r = m
      · subst h; simp [fmIncr]; omega
      · simp [fmIncr, h, ih]; omega

theorem cnt_fmIncr (fm : List (Record × Nat)) (m r : Record) :
    cnt (fmIncr fm m) r = cnt fm r + if r = m then 1 else 0 := by
  induction fm with
  | nil =>
      by_cases h : r = m
      · subst h; simp [cnt, fmGet, fmIncr]
      · simp [cnt, fmGet, fmIncr, h, Ne.symm h]
  | cons p rest ih =>
      obtain ⟨q, c⟩ := p
      by_cases hq : q = m
      · subst hq
        by_cases hr : q = r
        · subst hr; simp [fmIncr, cnt, fmGet]
        · simp [fmIncr, cnt, fmGet, hr, Ne.symm hr]
      · by_cases hr : q = r
        · subst hr
          simp [fmIncr, cnt, fmGet, hq, Ne.symm hq]
        · simp [fmIncr, cnt, fmGet, hq, hr]
          exact ih

theorem cnt_foldl (l : List Record) :
    ∀ (fm : List (Record × Nat)) (r : Record),
      cnt (l.foldl fmIncr fm) r = cnt fm r + l.count r := by
  induction l with
  | nil => intro fm r; simp
  | cons a l ih =>
      intro fm r
      rw [List.foldl_cons, ih, cnt_fmIncr, count_cons_ite]
      omega

theorem freqFold_cnt (b : List Record) (r : Record) :
    cnt (freqFold b) r = b.count r := by
  unfold freqFold
  rw [cnt_foldl]
  simp [cnt, fmGet]

theorem fmIncr_fst_nodup (fm : List (Record × Nat)) (m : Record)
    (h : (fm.map Prod.fst).Nodup) : ((fmIncr fm m).map Prod.fst).Nodup := by
  rw [fmIncr_fst]
  split
  · exact h
  · next hm =>
      exact List.Nodup.append h (List.nodup_singleton m)
        (by intro x hx hy; simp at hy; subst hy; exact hm hx)

theorem freqFoldAux_fst_nodup (l : List Record) :
    ∀ fm, (fm.map Prod.fst).Nodup → ((l.foldl fmIncr fm).map Prod.fst).Nodup := by
  induction l with
  | nil => intro fm h; simpa using h
  | cons a l ih =>
      intro fm h
      rw [List.foldl_cons]
      exact ih _ (fmIncr_fst_nodup fm a h)

theorem freqFold_fst_nodup (b : List Record) : ((freqFold b).map Prod.fst).Nodup :=
  freqFoldAux_fst_nodup b [] (by simp)

theorem fmGet_of_mem (fm : List (Record × Nat)) (p : Record × Nat)
    (hnd : (fm.map Prod.fst).Nodup) (hp : p ∈ fm) : fmGet fm p.1 = some p.2 := by
  induction fm with
  | nil => cases hp
  | cons q rest ih =>
      obtain ⟨r, c⟩ := q
      rw [List.map_cons] at hnd
      have h1 := (List.nodup_cons.mp hnd).1
      have h2 := (List.nodup_cons.mp hnd).2
      rcases List.mem_cons.mp hp with hp | hp
      · subst hp; simp [fmGet]
      · have hne : r ≠ p.1 := by
          intro he
          refine h1 ?_
          rw [he]
          exact List.mem_map.mpr ⟨p, hp, rfl⟩
        simp [fmGet, hne]
        exact ih h2 hp

theorem freqFold_mem_count (b : List Record) (p : Record × Nat)
    (hp : p ∈ freqFold b) : p.2 = b.count p.1 := by
  have h := fmGet_of_mem (freqFold b) p (freqFold_fst_nodup b) hp
  have h2 := freqFold_cnt b p.1
  rw [cnt, h] at h2
  simpa using h2

theorem freqFoldAux_sum (l : List Record) :
    ∀ fm, ((l.foldl fmIncr fm).map Prod.snd).sum = ((fm.map Prod.snd).sum) + l.length := by
  induction l with
  | nil => intro fm; simp
  | cons a l ih =>
      intro fm
      rw [List.foldl_cons, ih, fmIncr_snd_sum]
      simp; omega

theorem freqFold_sum (b : List Record) :
    ((freqFold b).map Prod.snd).sum = b.length := by
  unfold freqFold
  rw [freqFoldAux_sum]
  simp

theorem freqFoldAux_fst (l : List Record) :
    ∀ fm, ((l.foldl fmIncr fm).map Prod.fst) =
      l.foldl (fun acc r => if r ∈ acc then acc else acc ++ [r]) (fm.map Prod.fst) := by
  induction l with
  | nil => intro fm; simp
  | cons a l ih =>
      intro fm
      rw [List.foldl_cons, List.foldl_cons, ih, fmIncr_fst]

theorem freqFold_fst (b : List Record) : (freqFold b).map Prod.fst = dedupFO b := by
  unfold freqFold dedupFO
  rw [freqFoldAux_fst]
  rfl

theorem sortedMatchesOf_sorted (b : List Record) :
    List.Sorted descCount (sortedMatchesOf b) :=
  List.sorted_insertionSort descCount (freqFold b)

theorem sortedMatchesOf_perm (b : List Record) :
    (sortedMatchesOf b).Perm (freqFold b) :=
  List.perm_insertionSort descCount (freqFold b)

theorem sortedMatchesOf_length (b : List Record) :
    (sortedMatchesOf b).length = (dedupFO b).length := by
  unfold sortedMatchesOf
  rw [List.length_insertionSort, ← freqFold_fst]
  exact (List.length_map _ _).symm

theorem matchResult_eq (b : List Record) :
    matchResult b =
      .matched ((sortedMatchesOf b).take 5) ((dedupFO b).length - 5)
        ((dedupFO b).length) := by
  simp only [matchResult]
  rw [sortedMatchesOf_length]
  have h5 : (if 5 < (dedupFO b).length then (dedupFO b).length - 5 else 0) =
      (dedupFO b).length - 5 := by split <;> omega
  rw [h5]

/-- C3: when the query key `k` is present with bucket `b` of `N = b.length`
records forming `K = (dedupFO b).length` distinct metadata combinations,
`predict` returns total `K`, hidden count `K - 5` (`Nat` subtraction is
`max(0, K-5)`), top matches of length `min K 5` sorted by descending
occurrence count, each entry tagged with its combination's occurrence count
in the bucket, and returned counts plus hidden-group counts sum to `N`. -/
theorem dict_collision_accounting (db : JA4PlusDatabase) (ja4 ja4s ja4ts k : Str)
    (bucket : List Record)
    (hk : targetKeyOf db.mode ja4 ja4s ja4ts = some k)
    (hb : idxFind db.index k = some bucket) :
    db.predict ja4 ja4s ja4ts =
      .matched ((sortedMatchesOf bucket).take 5)
        ((dedupFO bucket).length - 5) ((dedupFO bucket).length) ∧
    ((sortedMatchesOf bucket).take 5).length = min ((dedupFO bucket).length) 5 ∧
    List.Sorted descCount ((sortedMatchesOf bucket).take 5) ∧
    (∀ p ∈ (sortedMatchesOf bucket).take 5, p.2 = bucket.count p.1) ∧
    (((sortedMatchesOf bucket).take 5).map Prod.snd).sum +
        (((sortedMatchesOf bucket).drop 5).map Prod.snd).sum = bucket.length := by
  refine ⟨?_, ?_, ?_, ?_, ?_⟩
  · rw [predict_eq_some db ja4 ja4s ja4ts k hk]
    unfold lookupStep
    rw [hb]
    exact matchResult_eq bucket
  · rw [List.length_take, sortedMatchesOf_length, Nat.min_comm]
  · exact List.Pairwise.sublist (List.take_sublist 5 _) (sortedMatchesOf_sorted bucket)
  · intro p hp
    exact freqFold_mem_count bucket p
      (((sortedMatchesOf_perm bucket).mem_iff).mp (List.take_subset 5 _ hp))
  · rw [← List.sum_append, ← List.map_append, List.take_append_drop,
      ((sortedMatchesOf_perm bucket).map Prod.snd).sum_eq, freqFold_sum]

theorem dict_collision_accounting_witness :
    JA4PlusDatabase.predict
        ⟨.ja4_only,
          loadRows .ja4_only []
            [⟨some (str "X"), none, none, none, some (str "A1"), none, none, none, none, none⟩,
             ⟨some (str "X"), none, none, none, some (str "A2"), none, none, none, none, none⟩]⟩
        (str "X") [] [] =
      .matched
        ((sortedMatchesOf
            [⟨str "A1", [], [], [], [], []⟩, ⟨str "A2", [], [], [], [], []⟩]).take 5)
        ((dedupFO [⟨str "A1", [], [], [], [], []⟩, ⟨str "A2", [], [], [], [], []⟩]).length - 5)
        ((dedupFO [⟨str "A1", [], [], [], [], []⟩, ⟨str "A2", [], [], [], [], []⟩]).length) :=
  (dict_collision_accounting
    ⟨.ja4_only,
      loadRows .ja4_only []
        [⟨some (str "X"), none, none, none, some (str "A1"), none, none, none, none, none⟩,
         ⟨some (str "X"), none, none, none, some (str "A2"), none, none, none, none, none⟩]⟩
    (str "X") [] [] (str "X")
    [⟨str "A1", [], [], [], [], []⟩, ⟨str "A2", [], [], [], [], []⟩]
    (by decide) (by decide)).1

/-! ### Separator splitting: keys determine components when components are
separator-free -/

theorem append_bar_inj : ∀ (a a' u u' : Str), bar ∉ a → bar ∉ a' →
    a ++ bar :: u = a' ++ bar :: u' → a = a' ∧ u = u'
  | [], [], _, _, _, _, h => by simpa using h
  | [], x :: xs, _, _, _, ha', h => by
      injection h with h1 h2
      exact absurd (by rw [h1]; exact List.mem_cons_self x xs) ha'
  | x :: xs, [], _, _, ha, _, h => by
      injection h with h1 h2
      exact absurd (by rw [← h1]; exact List.mem_cons_self x xs) ha
  | x :: xs, y :: ys, u, u', ha, ha', h => by
      injection h with h1 h2
      obtain ⟨e1, e2⟩ := append_bar_inj xs ys u u'
        (fun hm => ha (List.mem_cons_of_mem x hm))
        (fun hm => ha' (List.mem_cons_of_mem y hm)) h2
      exact ⟨by rw [h1, e1], e2⟩

theorem key2_inj (a b j s : Str) (hj : bar ∉ j) (hs : bar ∉ s)
    (h : a ++ bar :: b = j ++ bar :: s) : a = j ∧ b = s := by
  have hja : List.count bar j = 0 := List.count_eq_zero.mpr hj
  have hsa : List.count bar s = 0 := List.count_eq_zero.mpr hs
  have hc := congrArg (List.count bar) h
  simp [List.count_append, List.count_cons_self, hja, hsa] at hc
  have ha0 : List.count bar a = 0 := by omega
  exact append_bar_inj a j b s (List.count_eq_zero.mp ha0) hj h

theorem key3_inj (a b c j s t : Str) (hj : bar ∉ j) (hs : bar ∉ s) (ht : bar ∉ t)
    (h : a ++ bar :: (b ++ bar :: c) = j ++ bar :: (s ++ bar :: t)) :
    a = j ∧ b = s ∧ c = t := by
  have hja : List.count bar j = 0 := List.count_eq_zero.mpr hj
  have hsa : List.count bar s = 0 := List.count_eq_zero.mpr hs
  have hta : List.count bar t = 0 := List.count_eq_zero.mpr ht
  have hc := congrArg (List.count bar) h
  simp [List.count_append, List.count_cons_self, hja, hsa, hta] at hc
  have ha0 : List.count bar a = 0 := by omega
  have hb0 : List.count bar b = 0 := by omega
  obtain ⟨e1, e2⟩ := append_bar_inj a j (b ++ bar :: c) (s ++ bar :: t)
    (List.count_eq_zero.mp ha0) hj h
  obtain ⟨e3, e4⟩ := append_bar_inj b s c t (List.count_eq_zero.mp hb0) hs e2
  exact ⟨e1, e3, e4⟩

/-! ### Index membership under load -/

theorem idxFind_idxAppend (idx : Index) (k k' : Str) (rec : Record) :
    idxFind (idxAppend idx k' rec) k =
      if k = k' then some ((idxFind idx k).getD [] ++ [rec]) else idxFind idx k := by
  induction idx with
  | nil =>
      by_cases h : k = k'
      · subst h; simp [idxAppend, idxFind]
      · simp [idxAppend, idxFind, h, Ne.symm h]
  | cons p rest ih =>
      obtain ⟨q, b⟩ := p
      by_cases hq : q = k'
      · subst hq
        by_cases hk : q = k
        · subst hk; simp [idxAppend, idxFind]
        · simp [idxAppend, idxFind, hk, Ne.symm hk]
      · by_cases hk : q = k
        · subst hk
          simp [idxAppend, idxFind, hq, Ne.symm hq]
        · simp [idxAppend, idxFind, hq, hk, ih]

theorem idxFind_loadRows_ne_none (m : Mode) (rows : List Row) :
    ∀ (idx : Index) (k : Str),
      idxFind (loadRows m idx rows) k ≠ none ↔
        (idxFind idx k ≠ none ∨ ∃ row ∈ rows, rowKey m row = some k) := by
  induction rows with
  | nil => intro idx k; simp [loadRows]
  | cons row rows ih =>
      intro idx k
      have hstep : loadRows m idx (row :: rows) = loadRows m (processRow m idx row) rows := rfl
      rw [hstep, ih]
      cases hrk : rowKey m row with
      | none =>
          simp [processRow, hrk, List.exists_mem_cons_iff]
      | some k' =>
          simp only [processRow, hrk, idxFind_idxAppend, List.exists_mem_cons_iff]
          by_cases hkk : k = k'
          · subst hkk
            simp [hrk]
          · simp [hkk, Ne.symm hkk, hrk]

/-- The query resolved to the `{"result": "match", ...}` outcome. -/
def resultIsMatch (r : PredictResult) : Prop :=
  ∃ tms a tot, r = .matched tms a tot

theorem predict_matched_inv (db : JA4PlusDatabase) (ja4 ja4s ja4ts : Str)
    (tms : List (Record × Nat)) (a tot : Nat)
    (h : db.predict ja4 ja4s ja4ts = .matched tms a tot) :
    ∃ k bucket, targetKeyOf db.mode ja4 ja4s ja4ts = some k ∧
      idxFind db.index k = some bucket := by
  rw [predict_eq] at h
  cases htk : targetKeyOf db.mode ja4 ja4s ja4ts with
  | none => rw [htk] at h; exact PredictResult.noConfusion h
  | some k =>
      rw [htk] at h
      have h2 : lookupStep db.index k = .matched tms a tot := h
      unfold lookupStep at h2
      cases hf : idxFind db.index k with
      | none => rw [hf] at h2; exact PredictResult.noConfusion h2
      | some bucket => exact ⟨k, bucket, rfl, hf⟩

theorem lookup_gives_match (db : JA4PlusDatabase) (ja4 ja4s ja4ts k : Str)
    (bucket : List Record)
    (hk : targetKeyOf db.mode ja4 ja4s ja4ts = some k)
    (hf : idxFind db.index k = some bucket) :
    resultIsMatch (db.predict ja4 ja4s ja4ts) := by
  rw [predict_eq_some db ja4 ja4s ja4ts k hk]
  unfold lookupStep
  rw [hf]
  exact ⟨_, _, _, matchResult_eq bucket⟩

/-- C4 (amended): monotonic mode strictness holds for separator-free query
components: a tuple that matches under `ja4_ja4s_ja4ts` on an index built
from `rows` also matches under `ja4_only` (queried with the JA4 component
alone, provided it is non-empty) and under `ja4_ja4s` (queried with the JA4
and JA4S components, provided at least one is non-empty) on indexes built
from the same rows.  Without the separator-free proviso the property fails
(see the counterexample). -/
theorem dict_mode_monotonic (rows : List Row) (ja4 ja4s ja4ts : Str)
    (hj : barFree ja4) (hs : barFree ja4s) (ht : barFree ja4ts)
    (tms : List (Record × Nat)) (a tot : Nat)
    (h3 : JA4PlusDatabase.predict ⟨.ja4_ja4s_ja4ts, loadRows .ja4_ja4s_ja4ts [] rows⟩
            ja4 ja4s ja4ts = .matched tms a tot) :
    (ja4 ≠ [] →
      resultIsMatch (JA4PlusDatabase.predict ⟨.ja4_only, loadRows .ja4_only [] rows⟩
        ja4 [] [])) ∧
    (ja4 ≠ [] ∨ ja4s ≠ [] →
      resultIsMatch (JA4PlusDatabase.predict ⟨.ja4_ja4s, loadRows .ja4_ja4s [] rows⟩
        ja4 ja4s [])) := by
  obtain ⟨k, bucket, hk, hf⟩ := predict_matched_inv _ ja4 ja4s ja4ts tms a tot h3
  have hkval : k = ja4 ++ bar :: (ja4s ++ bar :: ja4ts) := by
    unfold targetKeyOf at hk
    by_cases hc : ja4 = [] ∧ ja4s = [] ∧ ja4ts = []
    · rw [if_pos hc] at hk; exact Option.noConfusion hk
    · rw [if_neg hc] at hk; injection hk with hkk; exact hkk.symm
  have hex : ∃ row ∈ rows, rowKey .ja4_ja4s_ja4ts row = some k := by
    have hne : idxFind (loadRows .ja4_ja4s_ja4ts [] rows) k ≠ none := by
      have hf2 : idxFind (loadRows .ja4_ja4s_ja4ts [] rows) k = some bucket := hf
      simp [hf2]
    rcases (idxFind_loadRows_ne_none .ja4_ja4s_ja4ts rows [] k).mp hne with h | h
    · simp [idxFind] at h
    · exact h
  obtain ⟨row, hrow, hrk⟩ := hex
  have hcomp : rowJa4 row = ja4 ∧ rowJa4s row = ja4s ∧ rowJa4ts row = ja4ts := by
    unfold rowKey indexKeyOf at hrk
    by_cases hc : rowJa4 row ≠ [] ∨ rowJa4s row ≠ [] ∨ rowJa4ts row ≠ []
    · rw [if_pos hc] at hrk
      injection hrk with hkk
      rw [hkval] at hkk
      exact key3_inj _ _ _ _ _ _ hj hs ht hkk
    · rw [if_neg hc] at hrk; exact Option.noConfusion hrk
  obtain ⟨e1, e2, e3⟩ := hcomp
  constructor
  · intro hne1
    have hrk1 : rowKey .ja4_only row = some ja4 := by
      unfold rowKey indexKeyOf
      rw [e1, if_pos hne1]
    have hne : idxFind (loadRows .ja4_only [] rows) ja4 ≠ none :=
      (idxFind_loadRows_ne_none .ja4_only rows [] ja4).mpr (Or.inr ⟨row, hrow, hrk1⟩)
    cases hfind : idxFind (loadRows .ja4_only [] rows) ja4 with
    | none => exact absurd hfind hne
    | some b1 =>
        have hk1 : targetKeyOf Mode.ja4_only ja4 [] [] = some ja4 := by
          unfold targetKeyOf; rw [if_neg hne1]
        exact lookup_gives_match _ ja4 [] [] ja4 b1 hk1 hfind
  · intro hne2
    have hcond : rowJa4 row ≠ [] ∨ rowJa4s row ≠ [] := by
      rw [e1, e2]; exact hne2
    have hrk2 : rowKey .ja4_ja4s row = some (ja4 ++ bar :: ja4s) := by
      unfold rowKey indexKeyOf
      rw [if_pos hcond, e1, e2]
    have hne : idxFind (loadRows .ja4_ja4s [] rows) (ja4 ++ bar :: ja4s) ≠ none :=
      (idxFind_loadRows_ne_none .ja4_ja4s rows [] _).mpr (Or.inr ⟨row, hrow, hrk2⟩)
    cases hfind : idxFind (loadRows .ja4_ja4s [] rows) (ja4 ++ bar :: ja4s) with
    | none => exact absurd hfind hne
    | some b2 =>
        have hk2 : targetKeyOf Mode.ja4_ja4s ja4 ja4s [] = some (ja4 ++ bar :: ja4s) := by
          have hcc : ¬(ja4 = [] ∧ ja4s = []) := by
            rintro ⟨hx, hy⟩
            rcases hne2 with h | h
            · exact h hx
            · exact h hy
          show (if ja4 = [] ∧ ja4s = [] then none
              else some (ja4 ++ bar :: ja4s)) = some (ja4 ++ bar :: ja4s)
          rw [if_neg hcc]
        exact lookup_gives_match _ ja4 ja4s [] _ b2 hk2 hfind

/-- C4 (counterexample to the unamended claim): with a database row whose
raw JA4 field is `"x|y"` (it contains the key separator), the query
`(ja4="x", ja4s="y|")` matches under `ja4_ja4s_ja4ts` — both sides build
the key `"x|y||"` — and its JA4 component `"x"` is non-empty, yet under
`ja4_only` on the same rows `predict(ja4="x")` returns unknown. -/
theorem dict_mode_monotonic_cex :
    JA4PlusDatabase.predict
        ⟨.ja4_ja4s_ja4ts,
          loadRows .ja4_ja4s_ja4ts []
            [⟨some (str "x|y"), none, none, none, none, none, none, none, none, none⟩]⟩
        (str "x") (str "y|") [] =
      .matched [(⟨[], [], [], [], [], []⟩, 1)] 0 1 ∧
    str "x" ≠ [] ∧
    JA4PlusDatabase.predict
        ⟨.ja4_only,
          loadRows .ja4_only []
            [⟨some (str "x|y"), none, none, none, none, none, none, none, none, none⟩]⟩
        (str "x") [] [] = .unknown none := by
  decide

theorem dict_mode_monotonic_witness :
    resultIsMatch (JA4PlusDatabase.predict
        ⟨.ja4_only,
          loadRows .ja4_only []
            [⟨some (str "A"), some (str "B"), none, none, none, none, none, none, none, none⟩]⟩
        (str "A") [] []) ∧
    resultIsMatch (JA4PlusDatabase.predict
        ⟨.ja4_ja4s,
          loadRows .ja4_ja4s []
            [⟨some (str "A"), some (str "B"), none, none, none, none, none, none, none, none⟩]⟩
        (str "A") (str "B") []) :=
  ⟨(dict_mode_monotonic
      [⟨some (str "A"), some (str "B"), none, none, none, none, none, none, none, none⟩]
      (str "A") (str "B") [] (by decide) (by decide) (by decide)
      [(⟨[], [], [], [], [], []⟩, 1)] 0 1 (by decide)).1 (by decide),
   (dict_mode_monotonic
      [⟨some (str "A"), some (str "B"), none, none, none, none, none, none, none, none⟩]
      (str "A") (str "B") [] (by decide) (by decide) (by decide)
      [(⟨[], [], [], [], [], []⟩, 1)] 0 1 (by decide)).2 (by decide)⟩

/-- The raw components a mode selects into its key, in key order. -/
def selComps (m : Mode) (ja4 ja4s ja4ts : Str) : List Str :=
  match m with
  | .ja4_only => [ja4]
  | .ja4_ja4s => [ja4, ja4s]
  | .ja4_ja4s_ja4ts => [ja4, ja4s, ja4ts]

theorem pyStrip_subset (s : Str) : pyStrip s ⊆ s := by
  intro x hx
  unfold pyStrip at hx
  rw [List.mem_reverse] at hx
  have hx2 := (List.dropWhile_sublist Char.isWhitespace).subset hx
  rw [List.mem_reverse] at hx2
  exact (List.dropWhile_sublist Char.isWhitespace).subset hx2

/-- Fact: the `predict` key constructor is pointwise the same function as
`load_database`'s (acceptance conditions are De Morgan duals); the only
build/query difference is that the build side strips its inputs first. -/
theorem targetKeyOf_eq_indexKeyOf (m : Mode) (a b c : Str) :
    targetKeyOf m a b c = indexKeyOf m a b c := by
  cases m <;> · unfold targetKeyOf indexKeyOf; split_ifs <;> first | rfl | tauto

theorem indexKeyOf_inj (m : Mode) (a b c a' b' c' : Str)
    (ha' : barFree a') (hb' : barFree b') (hc' : barFree c') :
    indexKeyOf m a b c = indexKeyOf m a' b' c' ↔
      selComps m a b c = selComps m a' b' c' := by
  cases m
  case ja4_only =>
    show (if a ≠ [] then some a else none) = (if a' ≠ [] then some a' else none) ↔
      [a] = [a']
    by_cases hA : a = [] <;> by_cases hA' : a' = [] <;>
      simp_all [eq_comm]
  case ja4_ja4s =>
    show (if a ≠ [] ∨ b ≠ [] then some (a ++ bar :: b) else none) =
        (if a' ≠ [] ∨ b' ≠ [] then some (a' ++ bar :: b') else none) ↔
      [a, b] = [a', b']
    by_cases hA : a ≠ [] ∨ b ≠ []
    · by_cases hA' : a' ≠ [] ∨ b' ≠ []
      · rw [if_pos hA, if_pos hA']
        constructor
        · intro h
          injection h with h0
          obtain ⟨e1, e2⟩ := key2_inj a b a' b' ha' hb' h0
          rw [e1, e2]
        · intro h
          injection h with e1 h'
          injection h' with e2 _
          rw [e1, e2]
      · rw [if_pos hA, if_neg hA']
        push_neg at hA'
        constructor
        · intro h; exact Option.noConfusion h
        · intro h
          injection h with e1 h'
          injection h' with e2 _
          rcases hA with h | h
          · exact absurd (e1.trans hA'.1) h
          · exact absurd (e2.trans hA'.2) h
    · by_cases hA' : a' ≠ [] ∨ b' ≠ []
      · rw [if_neg hA, if_pos hA']
        push_neg at hA
        constructor
        · intro h; exact Option.noConfusion h
        · intro h
          injection h with e1 h'
          injection h' with e2 _
          rcases hA' with h2 | h2
          · exact absurd (e1.symm.trans hA.1) h2
          · exact absurd (e2.symm.trans hA.2) h2
      · rw [if_neg hA, if_neg hA']
        push_neg at hA hA'
        constructor
        · intro _
          rw [hA.1, hA.2, hA'.1, hA'.2]
        · intro _; rfl
  case ja4_ja4s_ja4ts =>
    show (if a ≠ [] ∨ b ≠ [] ∨ c ≠ [] then some (a ++ bar :: (b ++ bar :: c)) else none) =
        (if a' ≠ [] ∨ b' ≠ [] ∨ c' ≠ [] then some (a' ++ bar :: (b' ++ bar :: c')) else none) ↔
      [a, b, c] = [a', b', c']
    by_cases hA : a ≠ [] ∨ b ≠ [] ∨ c ≠ []
    · by_cases hA' : a' ≠ [] ∨ b' ≠ [] ∨ c' ≠ []
      · rw [if_pos hA, if_pos hA']
        constructor
        · intro h
          injection h with h0
          obtain ⟨e1, e2, e3⟩ := key3_inj a b c a' b' c' ha' hb' hc' h0
          rw [e1, e2, e3]
        · intro h
          injection h with e1 h'
          injection h' with e2 h''
          injection h'' with e3 _
          rw [e1, e2, e3]
      · rw [if_pos hA, if_neg hA']
        push_neg at hA'
        constructor
        · intro h; exact Option.noConfusion h
        · intro h
          injection h with e1 h'
          injection h' with e2 h''
          injection h'' with e3 _
          rcases hA with h | h | h
          · exact absurd (e1.trans hA'.1) h
          · exact absurd (e2.trans hA'.2.1) h
          · exact absurd (e3.trans hA'.2.2) h
    · by_cases hA' : a' ≠ [] ∨ b' ≠ [] ∨ c' ≠ []
      · rw [if_neg hA, if_pos hA']
        push_neg at hA
        constructor
        · intro h; exact Option.noConfusion h
        · intro h
          injection h with e1 h'
          injection h' with e2 h''
          injection h'' with e3 _
          rcases hA' with h2 | h2 | h2
          · exact absurd (e1.symm.trans hA.1) h2
          · exact absurd (e2.symm.trans hA.2.1) h2
          · exact absurd (e3.symm.trans hA.2.2) h2
      · rw [if_neg hA, if_neg hA']
        push_neg at hA hA'
        constructor
        · intro _
          rw [hA.1, hA.2.1, hA.2.2, hA'.1, hA'.2.1, hA'.2.2]
        · intro _; rfl

/-- C6 (amended): provided no raw component contains the separator `|`, two
rows produce the same build-time index key iff their mode-selected
components are equal component-for-component after trim-normalization, and
two queries produce the same target key iff their mode-selected RAW
components are equal component-for-component (`predict` applies no
trim-normalization, so for queries the comparison is on the raw strings).
Without the separator proviso the invariant fails (see counterexample). -/
theorem dict_key_injective (m : Mode) (j1 s1 t1 j2 s2 t2 : Str)
    (h1 : barFree j1) (h2 : barFree s1) (h3 : barFree t1)
    (h4 : barFree j2) (h5 : barFree s2) (h6 : barFree t2) :
    (buildKeyFromRaw m j1 s1 t1 = buildKeyFromRaw m j2 s2 t2 ↔
        selComps m (pyStrip j1) (pyStrip s1) (pyStrip t1) =
          selComps m (pyStrip j2) (pyStrip s2) (pyStrip t2)) ∧
    (targetKeyOf m j1 s1 t1 = targetKeyOf m j2 s2 t2 ↔
        selComps m j1 s1 t1 = selComps m j2 s2 t2) := by
  have hstrip : ∀ x, barFree x → barFree (pyStrip x) :=
    fun x hx hm => hx (pyStrip_subset x hm)
  constructor
  · exact indexKeyOf_inj m _ _ _ _ _ _ (hstrip _ h4) (hstrip _ h5) (hstrip _ h6)
  · rw [targetKeyOf_eq_indexKeyOf, targetKeyOf_eq_indexKeyOf]
    exact indexKeyOf_inj m j1 s1 t1 j2 s2 t2 h4 h5 h6

/-- C6 (counterexample to the unamended claim): under `ja4_ja4s`, the row
components `("a|b", "")` and `("a", "b|")` are unequal component-for-component
after trimming, yet both build the index key `"a|b|"`. -/
theorem dict_key_injective_cex :
    buildKeyFromRaw .ja4_ja4s (str "a|b") [] [] =
      buildKeyFromRaw .ja4_ja4s (str "a") (str "b|") [] ∧
    pyStrip (str "a|b") ≠ pyStrip (str "a") := by
  decide

theorem dict_key_injective_witness :
    (buildKeyFromRaw .ja4_ja4s (str " a") (str "b") [] =
        buildKeyFromRaw .ja4_ja4s (str "a") (str "b ") [] ↔
      selComps .ja4_ja4s (pyStrip (str " a")) (pyStrip (str "b")) (pyStrip []) =
        selComps .ja4_ja4s (pyStrip (str "a")) (pyStrip (str "b ")) (pyStrip [])) ∧
    (targetKeyOf .ja4_ja4s (str " a") (str "b") [] =
        targetKeyOf .ja4_ja4s (str "a") (str "b ") [] ↔
      selComps .ja4_ja4s (str " a") (str "b") [] =
        selComps .ja4_ja4s (str "a") (str "b ") []) :=
  dict_key_injective .ja4_ja4s (str " a") (str "b") [] (str "a") (str "b ") []
    (by decide) (by decide) (by decide) (by decide) (by decide) (by decide)

/-- First-occurrence deduplication on label strings (the semantics of
`if cand not in top_k_list: top_k_list.append(cand)`). -/
def dedupFOs (l : List Str) : List Str :=
  l.foldl (fun acc r => if r ∈ acc then acc else acc ++ [r]) []

theorem topKFoldAux_eq (l : List Str) :
    ∀ acc, l.foldl (fun acc a => if a ≠ [] ∧ a ∉ acc then acc ++ [a] else acc) acc =
      (l.filter (fun x => !x.isEmpty)).foldl
        (fun acc a => if a ∈ acc then acc else acc ++ [a]) acc := by
  induction l with
  | nil => intro acc; rfl
  | cons a l ih =>
      intro acc
      by_cases ha : a = []
      · subst ha
        simp only [List.foldl_cons, List.filter_cons]
        rw [ih]
        simp
      · by_cases hmem : a ∈ acc
        · simp only [List.foldl_cons, List.filter_cons]
          rw [ih]
          simp [List.isEmpty_iff, ha, hmem]
        · simp only [List.foldl_cons, List.filter_cons]
          rw [ih]
          simp [List.isEmpty_iff, ha, hmem]

theorem topKFold_eq (tms : List (Record × Nat)) :
    topKFold tms =
      dedupFOs ((tms.map (fun p => p.1.Application)).filter (fun x => !x.isEmpty)) := by
  unfold topKFold dedupFOs
  have h1 : tms.foldl
      (fun acc m =>
        if m.1.Application ≠ [] ∧ m.1.Application ∉ acc then acc ++ [m.1.Application]
        else acc) [] =
      (tms.map (fun p => p.1.Application)).foldl
        (fun acc a => if a ≠ [] ∧ a ∉ acc then acc ++ [a] else acc) [] := by
    rw [List.foldl_map]
  rw [h1, topKFoldAux_eq]

/-- C8 (amended): for each evaluated test row the harness emits `top_k`
equal to the ranked candidates' NON-EMPTY application labels, deduplicated
with first-occurrence order preserved (an empty application label is skipped
by the `if cand and ...` truthiness test), `prediction` equal to the head of
`top_k` when `top_k` is non-empty — the first ranked non-empty label — and
the literal sentinel `"Unknown"` otherwise, `true_app` equal to the row's
label, and `matches_count` the reported total combination count (0 on an
unknown result). -/
theorem dict_harness_projection (app : Str) (tms : List (Record × Nat)) (a tot : Nat) :
    (projectRow app (.matched tms a tot)).top_k =
        dedupFOs ((tms.map (fun p => p.1.Application)).filter (fun x => !x.isEmpty)) ∧
    (projectRow app (.matched tms a tot)).prediction =
        (match (projectRow app (.matched tms a tot)).top_k with
          | [] => str "Unknown"
          | p :: _ => p) ∧
    (projectRow app (.matched tms a tot)).true_app = app ∧
    (projectRow app (.matched tms a tot)).matches_count = tot ∧
    (∀ r, projectRow app (.unknown r) = ⟨app, str "Unknown", [], 0⟩) :=
  ⟨topKFold_eq tms, rfl, rfl, rfl, fun _ => rfl⟩

/-- C8 (counterexample to the unamended claim): a database row with a valid
fingerprint but an empty application label produces a match whose single
ranked candidate has `Application = ""`; the harness then emits `top_k = []`
(the empty label is NOT included) and `prediction = "Unknown"` (NOT the
first ranked label, which is the empty string). -/
theorem dict_harness_projection_cex :
    JA4PlusDatabase.predict
        ⟨.ja4_only,
          loadRows .ja4_only []
            [⟨some (str "A"), none, none, none, none, none, none, none, none, none⟩]⟩
        (str "A") [] [] = .matched [(⟨[], [], [], [], [], []⟩, 1)] 0 1 ∧
    (projectRow (str "T") (.matched [(⟨[], [], [], [], [], []⟩, 1)] 0 1)).top_k = [] ∧
    (projectRow (str "T") (.matched [(⟨[], [], [], [], [], []⟩, 1)] 0 1)).prediction =
      str "Unknown" ∧
    str "Unknown" ≠ ([] : Str) := by
  decide

/-! ### Double load: `load_database` never clears the index -/

/-- The records of `rows` accepted under key `k`, in row order. -/
def acceptedRecords (m : Mode) (rows : List Row) (k : Str) : List Record :=
  rows.filterMap (fun row => if rowKey m row = some k then some (recordOf row) else none)

theorem idxFind_loadRows (m : Mode) (rows : List Row) :
    ∀ (idx : Index) (k : Str),
      idxFind (loadRows m idx rows) k =
        if idxFind idx k = none ∧ acceptedRecords m rows k = [] then none
        else some ((idxFind idx k).getD [] ++ acceptedRecords m rows k) := by
  induction rows with
  | nil =>
      intro idx k
      cases hf : idxFind idx k with
      | none => simp [loadRows, acceptedRecords, hf]
      | some b => simp [loadRows, acceptedRecords, hf]
  | cons row rows ih =>
      intro idx k
      have hstep : loadRows m idx (row :: rows) = loadRows m (processRow m idx row) rows := rfl
      rw [hstep, ih]
      cases hrk : rowKey m row with
      | none =>
          simp [processRow, hrk, acceptedRecords, List.filterMap_cons]
      | some k' =>
          by_cases hkk : k = k'
          · subst hkk
            simp only [processRow, hrk, acceptedRecords, List.filterMap_cons,
              idxFind_idxAppend, if_pos rfl]
            simp [List.append_assoc]
          · simp only [processRow, hrk, acceptedRecords, List.filterMap_cons,
              idxFind_idxAppend, if_neg hkk]
            simp [hkk, Ne.symm hkk]

theorem double_load_bucket (m : Mode) (rows : List Row) (k : Str) :
    idxFind (loadRows m (loadRows m [] rows) rows) k =
      (idxFind (loadRows m [] rows) k).map (fun l => l ++ l) := by
  have h1 := idxFind_loadRows m rows [] k
  have h2 := idxFind_loadRows m rows (loadRows m [] rows) k
  rw [show idxFind [] k = none from rfl] at h1
  cases hA : acceptedRecords m rows k with
  | nil =>
      rw [hA] at h1 h2
      simp at h1
      rw [h1] at h2 ⊢
      simpa using h2
  | cons r rs =>
      rw [hA] at h1 h2
      simp at h1
      rw [h1] at h2 ⊢
      simp at h2
      rw [h2]
      rfl

theorem mem_dedupFOAux (l : List Record) :
    ∀ acc r, r ∈ l.foldl (fun acc x => if x ∈ acc then acc else acc ++ [x]) acc ↔
      r ∈ acc ∨ r ∈ l := by
  induction l with
  | nil => intro acc r; simp
  | cons a l ih =>
      intro acc r
      rw [List.foldl_cons, ih]
      by_cases ha : a ∈ acc
      · rw [if_pos ha]
        constructor
        · rintro (h | h)
          · exact Or.inl h
          · exact Or.inr (List.mem_cons_of_mem a h)
        · rintro (h | h)
          · exact Or.inl h
          · rcases List.mem_cons.mp h with h | h
            · subst h; exact Or.inl ha
            · exact Or.inr h
      · rw [if_neg ha]
        simp only [List.mem_append, List.mem_cons, List.mem_singleton]
        tauto

theorem mem_dedupFO (b : List Record) (r : Record) : r ∈ dedupFO b ↔ r ∈ b := by
  unfold dedupFO
  rw [mem_dedupFOAux]
  simp

theorem fmIncr_of_mem (fm : List (Record × Nat)) (a : Record)
    (hnd : (fm.map Prod.fst).Nodup) (ha : a ∈ fm.map Prod.fst) :
    fmIncr fm a = fm.map (fun p => if p.1 = a then (p.1, p.2 + 1) else p) := by
  induction fm with
  | nil => simp at ha
  | cons q rest ih =>
      obtain ⟨r, c⟩ := q
      rw [List.map_cons] at hnd ha
      have h1 := (List.nodup_cons.mp hnd).1
      have h2 := (List.nodup_cons.mp hnd).2
      by_cases h : r = a
      · subst h
        have hmapid : rest.map (fun p => if p.1 = r then (p.1, p.2 + 1) else p) = rest := by
          have hmap2 : rest.map (fun p => if p.1 = r then (p.1, p.2 + 1) else p) =
              rest.map id := by
            apply List.map_congr_left
            intro p hp
            have hne : p.1 ≠ r := fun he => h1 (by rw [← he]; exact List.mem_map.mpr ⟨p, hp, rfl⟩)
            simp [hne]
          rw [hmap2, List.map_id]
        simp [fmIncr, hmapid]
      · have ha2 : a ∈ rest.map Prod.fst := by
          rcases List.mem_cons.mp ha with h' | h'
          · exact absurd h'.symm h
          · exact h'
        simp [fmIncr, h, ih h2 ha2]

theorem foldl_fmIncr_all_mem (l : List Record) :
    ∀ fm, (fm.map Prod.fst).Nodup → (∀ r ∈ l, r ∈ fm.map Prod.fst) →
      l.foldl fmIncr fm = fm.map (fun p => (p.1, p.2 + l.count p.1)) := by
  induction l with
  | nil =>
      intro fm _ _
      simp
  | cons a l ih =>
      intro fm hnd hmem
      rw [List.foldl_cons]
      have ha := hmem a (List.mem_cons_self a l)
      rw [fmIncr_of_mem fm a hnd ha]
      have hkeys : (fm.map (fun p => if p.1 = a then (p.1, p.2 + 1) else p)).map Prod.fst =
          fm.map Prod.fst := by
        rw [List.map_map]
        apply List.map_congr_left
        intro p hp
        by_cases h : p.1 = a <;> simp [h]
      rw [ih _ (by rw [hkeys]; exact hnd)
        (fun r hr => by rw [hkeys]; exact hmem r (List.mem_cons_of_mem a hr))]
      rw [List.map_map]
      apply List.map_congr_left
      intro p hp
      by_cases h : p.1 = a
      · simp [h, count_cons_ite]
        omega
      · simp [h, count_cons_ite]

theorem freqFold_append_self (A : List Record) :
    freqFold (A ++ A) = (freqFold A).map (fun p => (p.1, p.2 + p.2)) := by
  unfold freqFold
  rw [List.foldl_append]
  have hmem : ∀ r ∈ A, r ∈ ((List.foldl fmIncr [] A).map Prod.fst) := by
    intro r hr
    rw [show List.foldl fmIncr [] A = freqFold A from rfl, freqFold_fst]
    exact (mem_dedupFO A r).mpr hr
  rw [foldl_fmIncr_all_mem A _ (freqFoldAux_fst_nodup A [] (by simp)) hmem]
  apply List.map_congr_left
  intro p hp
  have hc := freqFold_mem_count A p hp
  rw [← hc]

theorem orderedInsert_double (a : Record × Nat) (l : List (Record × Nat)) :
    List.orderedInsert descCount ((fun p : Record × Nat => (p.1, p.2 + p.2)) a)
        (l.map (fun p => (p.1, p.2 + p.2))) =
      (List.orderedInsert descCount a l).map (fun p => (p.1, p.2 + p.2)) := by
  induction l with
  | nil => rfl
  | cons b l ih =>
      by_cases h : descCount a b
      · have hf : descCount ((fun p : Record × Nat => (p.1, p.2 + p.2)) a)
            ((fun p : Record × Nat => (p.1, p.2 + p.2)) b) := by
          simp only [descCount] at h ⊢
          omega
        simp [List.orderedInsert, h, hf]
      · have hf : ¬ descCount ((fun p : Record × Nat => (p.1, p.2 + p.2)) a)
            ((fun p : Record × Nat => (p.1, p.2 + p.2)) b) := by
          simp only [descCount] at h ⊢
          omega
        simp [List.orderedInsert, h, hf, ih]

theorem insertionSort_double (l : List (Record × Nat)) :
    List.insertionSort descCount (l.map (fun p => (p.1, p.2 + p.2))) =
      (List.insertionSort descCount l).map (fun p => (p.1, p.2 + p.2)) := by
  induction l with
  | nil => rfl
  | cons a l ih =>
      simp only [List.map_cons, List.insertionSort]
      rw [ih, orderedInsert_double]

/-- The transformation a duplicate load applies to a `predict` result: same
outcome shape, same combinations in the same order, same hidden and total
counts, doubled occurrence counts. -/
def doubleResult : PredictResult → PredictResult
  | .unknown r => .unknown r
  | .matched tms a tot => .matched (tms.map (fun p => (p.1, p.2 + p.2))) a tot

theorem matchResult_append_self (b : List Record) :
    matchResult (b ++ b) = doubleResult (matchResult b) := by
  have hs : sortedMatchesOf (b ++ b) =
      (sortedMatchesOf b).map (fun p => (p.1, p.2 + p.2)) := by
    unfold sortedMatchesOf
    rw [freqFold_append_self, insertionSort_double]
  simp only [matchResult, doubleResult, hs]
  rw [List.length_map, ← List.map_take]

/-- C10: `load_database` is append-only, so a second load over the same rows
appends every accepted record again: every bucket of the doubled index is
the single-load bucket appended to itself (absent keys stay absent; present
buckets double in length), and every `predict` answer keeps the same outcome
with the same distinct combinations in the same order and the same hidden
and total counts, while every `occurrences_in_database` count doubles. -/
theorem dict_double_load (m : Mode) (rows : List Row) :
    (∀ k, idxFind (loadRows m (loadRows m [] rows) rows) k =
        (idxFind (loadRows m [] rows) k).map (fun l => l ++ l)) ∧
    (∀ ja4 ja4s ja4ts,
      JA4PlusDatabase.predict ⟨m, loadRows m (loadRows m [] rows) rows⟩ ja4 ja4s ja4ts =
        doubleResult
          (JA4PlusDatabase.predict ⟨m, loadRows m [] rows⟩ ja4 ja4s ja4ts)) := by
  refine ⟨double_load_bucket m rows, ?_⟩
  intro ja4 ja4s ja4ts
  rw [predict_eq, predict_eq]
  cases htk : targetKeyOf m ja4 ja4s ja4ts with
  | none => rfl
  | some k =>
      show lookupStep (loadRows m (loadRows m [] rows) rows) k =
        doubleResult (lookupStep (loadRows m [] rows) k)
      unfold lookupStep
      rw [double_load_bucket m rows k]
      cases hf : idxFind (loadRows m [] rows) k with
      | none => rfl
      | some bucket =>
          show matchResult (bucket ++ bucket) = doubleResult (matchResult bucket)
          exact matchResult_append_self bucket
